import Mathlib

/-!
Shallow embedding of `src/CommandManager.cpp`: the message parser
`parseCommand`, the history ring helper `updateHistory`, and the payload
decoders, together with theorems checking the design document against them.
Strings are modelled as lists of characters; all protocol text is ASCII, so
C++ byte positions and byte lengths coincide with character positions.
-/

namespace CM

/-- C `isspace` in the default locale: the space character and the five
control whitespace characters (codes 9..13). -/
def isCSpace (c : Char) : Bool := decide (c.toNat = 32 ∨ (9 ≤ c.toNat ∧ c.toNat ≤ 13))

/-- C `isdigit`: the ten decimal digit characters `'0'..'9'`. -/
def isDigitC (c : Char) : Bool := decide (48 ≤ c.toNat ∧ c.toNat ≤ 57)

/-- Numeric value of a big-endian run of decimal digit characters,
accumulated the way `strtol` does. -/
def digitsVal (ds : List Char) : Nat := ds.foldl (fun a c => 10 * a + (c.toNat - 48)) 0

/-- Smallest value of the platform `int` (32 bits on the VS2019 targets the
source names). -/
def intMin : Int := -2147483648

/-- Largest value of the platform `int`. -/
def intMax : Int := 2147483647

/-- Modelled from the spec: the platform integer parser `std::stoi`
(`strtol`, base 10, 32-bit `int`) used at `CommandManager.cpp:65` and
`CommandManager.cpp:80`: skip C whitespace, take an optional sign, then the
longest run of decimal digits; no digits (`std::invalid_argument`) or a
value outside the `int` range (`std::out_of_range`) are both modelled as
`none`.  Trailing characters after the digit run are ignored. -/
def stoi (s : List Char) : Option Int :=
  let s1 := s.dropWhile isCSpace
  let sgn : Int := if s1.head? = some '-' then -1 else 1
  let s2 := if s1.head? = some '-' ∨ s1.head? = some '+' then s1.tail else s1
  let ds := s2.takeWhile isDigitC
  if ds = [] then none
  else
    let v : Int := sgn * (digitsVal ds : Int)
    if v < intMin ∨ intMax < v then none else some v

/-- The digit character for a value `d < 10`. -/
def digitChar (d : Nat) : Char := Char.ofNat (48 + d)

/-- Fuel-driven big-endian digit expansion of a positive natural number. -/
def natCharsAux : Nat → Nat → List Char
  | 0, _ => []
  | _ + 1, 0 => []
  | fuel + 1, n + 1 => natCharsAux fuel ((n + 1) / 10) ++ [digitChar ((n + 1) % 10)]

/-- Decimal digits of a natural number, most significant first. -/
def natToChars (n : Nat) : List Char := if n = 0 then ['0'] else natCharsAux (n + 1) n

/-- The characters `operator<<` prints for a C++ `int`. -/
def intToChars (n : Int) : List Char :=
  if n < 0 then '-' :: natToChars n.natAbs else natToChars n.natAbs

/-- The optional sign skip shared by the `strtol` / `strtod` subject
sequences: drop one leading `+` or `-`. -/
def dropSign (s1 : List Char) : List Char :=
  if s1.head? = some '-' ∨ s1.head? = some '+' then s1.tail else s1

/-- The sign factor of a subject sequence: `-1` for a leading `-`, else `1`. -/
def signVal (s1 : List Char) : Int := if s1.head? = some '-' then -1 else 1

/-- Integer-part digits of a mantissa tail. -/
def intPart (s2 : List Char) : List Char := s2.takeWhile isDigitC

/-- Fraction digits of a mantissa tail: present only when a point directly
follows the integer digits. -/
def fracPart (s2 : List Char) : List Char :=
  if (s2.dropWhile isDigitC).head? = some '.' then
    (s2.dropWhile isDigitC).tail.takeWhile isDigitC
  else []

/-- What remains of a mantissa tail after its digits and the optional point
with fraction digits. -/
def afterMantissa (s2 : List Char) : List Char :=
  if (s2.dropWhile isDigitC).head? = some '.' then
    (s2.dropWhile isDigitC).tail.dropWhile isDigitC
  else s2.dropWhile isDigitC

/-- Value of an optional exponent part: `e`/`E`, optional sign, digits;
0 when absent, and 0 when no digit follows the `e` (in which case `strtod`
does not consume the exponent at all). -/
def expVal (r2 : List Char) : Int :=
  if r2.head? = some 'e' ∨ r2.head? = some 'E' then
    if (dropSign r2.tail).takeWhile isDigitC = [] then 0
    else signVal r2.tail * (digitsVal ((dropSign r2.tail).takeWhile isDigitC) : Int)
  else 0

/-- Modelled from the spec: the platform floating parser `std::stod`
(`strtod`) used at `CommandManager.cpp:124`, restricted to the decimal forms
the protocol carries: skip C whitespace, optional sign, digits with an
optional point and fraction part, optional `e`/`E` exponent; the longest
valid prefix is converted and trailing characters are ignored.  The value is
kept exact as a pair `(mantissa, exponent)` denoting `mantissa * 10 ^
exponent`; binary double rounding, the finite double range and the
hexadecimal / infinity / NaN spellings are abstracted away.  Returns `none`
exactly when no prefix begins a number, which is when `std::stod` raises
`std::invalid_argument`. -/
def scanFloat (s : List Char) : Option (Int × Int) :=
  let s1 := s.dropWhile isCSpace
  let s2 := dropSign s1
  if intPart s2 = [] ∧ fracPart s2 = [] then none
  else some (signVal s1 * (digitsVal (intPart s2 ++ fracPart s2) : Int),
             expVal (afterMantissa s2) - (fracPart s2).length)

/-- Specification-side grammar: a full decimal floating literal as `strtod`
would accept it, written from the spec's words for "parses as a
floating-point number": optional C whitespace, optional sign, a digit
sequence with an optional point and fraction (or a point followed by
digits), and an optional signed exponent with at least one digit.  Used
only to compare the claim's "some non-empty prefix parses" phrasing with
`scanFloat`. -/
def validFloat (l : List Char) : Bool :=
  let s2 := dropSign (l.dropWhile isCSpace)
  if intPart s2 = [] ∧ fracPart s2 = [] then false
  else if afterMantissa s2 = [] then true
  else if (afterMantissa s2).head? = some 'e' ∨ (afterMantissa s2).head? = some 'E' then
    decide ((dropSign (afterMantissa s2).tail).takeWhile isDigitC ≠ [] ∧
            (dropSign (afterMantissa s2).tail).dropWhile isDigitC = [])
  else false

/-- Fuel-driven removal of trailing decimal zeros from a positive number. -/
def stripZerosAux : Nat → Nat → Nat
  | 0, r => r
  | fuel + 1, r => if r % 10 = 0 ∧ r ≠ 0 then stripZerosAux fuel (r / 10) else r

/-- Modelled from the spec: the default `std::ostream` formatting of a
`double` at `CommandManager.cpp:125` ("the platform's default
double-precision formatting (trailing zeros trimmed, no fixed precision)"):
`%g` with precision 6, applied to the exact decimal value
`m * 10 ^ e`.  Rounding of a decimal that needs more than six significant
digits is round-half-up on the exact value; the binary double's own
rounding is abstracted away. -/
def fmtG (m : Int) (e : Int) : List Char :=
  if m = 0 then ['0']
  else
    let sgn : List Char := if m < 0 then ['-'] else []
    let n := m.natAbs
    let d := (natToChars n).length
    let r0 : Nat := if d ≤ 6 then n * 10 ^ (6 - d) else (n / 10 ^ (d - 7) + 5) / 10
    let rp : Nat × Int :=
      if 10 ^ 6 ≤ r0 then (r0 / 10, (d : Int) + e) else (r0, (d : Int) - 1 + e)
    let s := stripZerosAux 6 rp.1
    let decExp := rp.2
    let digs := natToChars s
    let ds := digs.length
    sgn ++
    (if -4 ≤ decExp ∧ decExp ≤ 5 then
      if (ds : Int) - 1 ≤ decExp then
        digs ++ List.replicate (decExp - ((ds : Int) - 1)).toNat '0'
      else if 0 ≤ decExp then
        digs.take (decExp.toNat + 1) ++ '.' :: digs.drop (decExp.toNat + 1)
      else
        '0' :: '.' :: List.replicate (decExp.natAbs - 1) '0' ++ digs
    else
      (digs.take 1 ++ (if ds = 1 then [] else '.' :: digs.drop 1)) ++
      'e' :: (if decExp < 0 then '-' else '+') ::
      (if decExp.natAbs < 10 then '0' :: natToChars decExp.natAbs
       else natToChars decExp.natAbs))

/-- The tokenising loop at `CommandManager.cpp:103`: `std::getline` on `','`.
Splitting on every comma; the caller filters out the empty segments, which
also makes the final empty segment `getline` never yields irrelevant. -/
def splitCommas : List Char → List Char → List (List Char)
  | [], acc => [acc.reverse]
  | c :: t, acc => if c = ',' then acc.reverse :: splitCommas t [] else splitCommas t (c :: acc)

/-- `vecTokens` of `CommandManager.cpp:100-108`: comma-separated segments of
the message content with the empty ones dropped. -/
def tokens (content : List Char) : List (List Char) :=
  (splitCommas content []).filter (fun t => t ≠ [])

/-- The single line the pair loop at `CommandManager.cpp:121-129` prints for
one `(name, value)` pair once the name length check has passed. -/
def pairLine (name value : List Char) : List Char :=
  match scanFloat value with
  | some me => name ++ " = ".toList ++ fmtG me.1 me.2
  | none => "Invalid parameter value for parameter: ".toList ++ name

/-- The pair loop at `CommandManager.cpp:115-130`: one output line per
`(name, value)` pair; a trailing unpaired token is never reached because the
caller has already checked the count is even. -/
def processPairs : List (List Char) → List (List Char)
  | name :: value :: rest =>
      (if 15 < name.length then "Parameter name too long: ".toList ++ name
       else pairLine name value) :: processPairs rest
  | _ => []

/-- Opcode literal `RUN_NO____`. -/
def opRUN : List Char := "RUN_NO____".toList

/-- Opcode literal `POLAR_NO__`. -/
def opPOLAR : List Char := "POLAR_NO__".toList

/-- Opcode literal `USR_MSG___`. -/
def opUSR : List Char := "USR_MSG___".toList

/-- Opcode literal `D_USR_FLD_`. -/
def opDUSR : List Char := "D_USR_FLD_".toList

/-- Opcode literal `HISTORY___`. -/
def opHISTORY : List Char := "HISTORY___".toList

/-- The four data opcodes: the recognized opcodes that `parseCommand`
records in the history ring. -/
def dataOpcodes : List (List Char) := [opRUN, opPOLAR, opUSR, opDUSR]

/-- `updateHistory` of `CommandManager.cpp:28-37`: push the opcode at the
front of the deque and pop the back if the size now exceeds 5. -/
def updateHistory (strHistory : List (List Char)) (strOpCode : List Char) :
    List (List Char) :=
  if 5 < (strOpCode :: strHistory).length then (strOpCode :: strHistory).dropLast
  else strOpCode :: strHistory

/-- The dispatch chain of `parseCommand` (`CommandManagerr.cpp:61-145`) once
framing has passed: given the opcode, the stripped message content and the
history, produce the emitted lines and the new history.  The final
`if (bRecognised)` record step is folded into each branch; the early
`return` on an odd `D_USR_FLD_` token count bypasses it exactly as in the
source. -/
def dispatch (op content : List Char) (strHistory : List (List Char)) :
    List (List Char) × List (List Char) :=
  if op = opRUN then
    match stoi content with
    | some n => (["Run number: ".toList ++ intToChars n], updateHistory strHistory op)
    | none => (["Invalid Run number: ".toList ++ content], updateHistory strHistory op)
  else if op = opPOLAR then
    match stoi content with
    | some n => (["Polar number: ".toList ++ intToChars n], updateHistory strHistory op)
    | none => (["Invalid Polar number: ".toList ++ content], updateHistory strHistory op)
  else if op = opUSR then
    ([content], updateHistory strHistory op)
  else if op = opDUSR then
    if (tokens content).length % 2 ≠ 0 then ([], strHistory)
    else ("Parameters:".toList :: processPairs (tokens content),
          updateHistory strHistory op)
  else if op = opHISTORY then
    (strHistory, strHistory)
  else
    ([], strHistory)

/-- The sentinel strip at `CommandManager.cpp:56-58`: remove one trailing
`#` from the message content if it is non-empty and ends in `#`. -/
def stripHash (rest : List Char) : List Char :=
  if rest ≠ [] ∧ rest.getLast? = some '#' then rest.dropLast else rest

/-- `parseCommand` of `CommandManager.cpp:40-147`: framing checks (non-empty,
ends in `#`, length at least 11), decomposition into a 10-character opcode
and the content with one trailing `#` stripped, then dispatch.  Returns the
emitted lines and the new history. -/
def parseCommand (strInput : List Char) (strHistory : List (List Char)) :
    List (List Char) × List (List Char) :=
  if strInput = [] then ([], strHistory)
  else if strInput.getLast? ≠ some '#' then ([], strHistory)
  else if 11 ≤ strInput.length then
    dispatch (strInput.take 10) (stripHash (strInput.drop 10)) strHistory
  else ([], strHistory)

/-- History after feeding a sequence of inputs to `parseCommand`, starting
from the empty ring, threading the ring through the calls like `main` does. -/
def histAfter (inputs : List (List Char)) : List (List Char) :=
  inputs.foldl (fun h i => (parseCommand i h).2) []

/-- Flattening of a list of `(name, value)` pairs into the token list the
pair loop walks. -/
def pairsFlatten : List (List Char × List Char) → List (List Char)
  | [] => []
  | (a, b) :: r => a :: b :: pairsFlatten r

/-! ### Basic lemmas about the embedding -/

lemma opRUN_length : opRUN.length = 10 := rfl

lemma opPOLAR_length : opPOLAR.length = 10 := rfl

lemma opUSR_length : opUSR.length = 10 := rfl

lemma opDUSR_length : opDUSR.length = 10 := rfl

lemma opHISTORY_length : opHISTORY.length = 10 := rfl

lemma updateHistory_eq (h : List (List Char)) (op : List Char) :
    updateHistory h op = op :: (if 5 ≤ h.length then h.dropLast else h) := by
  rcases h with _ | ⟨x, t⟩
  · simp [updateHistory]
  · by_cases h5 : 5 ≤ (x :: t).length
    · rw [updateHistory,
          if_pos (show 5 < (op :: x :: t).length from Nat.lt_succ_of_le h5), if_pos h5]
      rfl
    · rw [updateHistory,
          if_neg (show ¬5 < (op :: x :: t).length from
            fun hlt => h5 (Nat.lt_succ_iff.mp hlt)),
          if_neg h5]

lemma stripHash_concat (p : List Char) : stripHash (p ++ ['#']) = p := by
  rw [stripHash, if_pos ⟨by simp, List.getLast?_concat _⟩]
  exact List.dropLast_concat

lemma parseCommand_framed (op p : List Char) (h : List (List Char))
    (hop : op.length = 10) :
    parseCommand (op ++ p ++ ['#']) h = dispatch op p h := by
  rw [parseCommand, if_neg (by simp),
      if_neg (by rw [List.append_assoc]; simp [List.getLast?_concat]),
      if_pos (by simp only [List.length_append, List.length_cons, List.length_nil, hop]; omega)]
  rw [List.append_assoc, List.take_left' hop, List.drop_left' hop, stripHash_concat]

lemma dispatch_run (p : List Char) (h : List (List Char)) :
    dispatch opRUN p h =
      ((match stoi p with
        | some n => ["Run number: ".toList ++ intToChars n]
        | none => ["Invalid Run number: ".toList ++ p]), updateHistory h opRUN) := by
  rw [dispatch, if_pos rfl]
  rcases stoi p with _ | n <;> rfl

lemma dispatch_polar (p : List Char) (h : List (List Char)) :
    dispatch opPOLAR p h =
      ((match stoi p with
        | some n => ["Polar number: ".toList ++ intToChars n]
        | none => ["Invalid Polar number: ".toList ++ p]), updateHistory h opPOLAR) := by
  rw [dispatch, if_neg (by decide), if_pos rfl]
  rcases stoi p with _ | n <;> rfl

lemma dispatch_usr (p : List Char) (h : List (List Char)) :
    dispatch opUSR p h = ([p], updateHistory h opUSR) := rfl

lemma dispatch_dusr (p : List Char) (h : List (List Char)) :
    dispatch opDUSR p h =
      if (tokens p).length % 2 ≠ 0 then ([], h)
      else ("Parameters:".toList :: processPairs (tokens p), updateHistory h opDUSR) := rfl

lemma dispatch_history (p : List Char) (h : List (List Char)) :
    dispatch opHISTORY p h = (h, h) := rfl

lemma dispatch_unknown (op c : List Char) (h : List (List Char))
    (h1 : op ≠ opRUN) (h2 : op ≠ opPOLAR) (h3 : op ≠ opUSR) (h4 : op ≠ opDUSR)
    (h6 : op ≠ opHISTORY) : dispatch op c h = ([], h) := by
  rw [dispatch, if_neg h1, if_neg h2, if_neg h3, if_neg h4, if_neg h6]

lemma dispatch_snd_cases (op c : List Char) (h : List (List Char)) :
    (dispatch op c h).2 = h ∨ op ∈ dataOpcodes ∧ (dispatch op c h).2 = updateHistory h op := by
  by_cases h1 : op = opRUN
  · subst h1; right
    exact ⟨List.mem_cons_self _ _, by rw [dispatch_run]⟩
  by_cases h2 : op = opPOLAR
  · subst h2; right
    exact ⟨List.mem_cons_of_mem _ (List.mem_cons_self _ _), by rw [dispatch_polar]⟩
  by_cases h3 : op = opUSR
  · subst h3; right
    exact ⟨List.mem_cons_of_mem _ (List.mem_cons_of_mem _ (List.mem_cons_self _ _)),
      by rw [dispatch_usr]⟩
  by_cases h4 : op = opDUSR
  · subst h4
    by_cases h5 : (tokens c).length % 2 ≠ 0
    · left
      rw [dispatch_dusr, if_pos h5]
    · right
      exact ⟨List.mem_cons_of_mem _ (List.mem_cons_of_mem _
        (List.mem_cons_of_mem _ (List.mem_cons_self _ _))),
        by rw [dispatch_dusr, if_neg h5]⟩
  by_cases h6 : op = opHISTORY
  · subst h6; left
    rw [dispatch_history]
  · left
    rw [dispatch_unknown op c h h1 h2 h3 h4 h6]

lemma parseCommand_snd_cases (i : List Char) (h : List (List Char)) :
    (parseCommand i h).2 = h ∨
      ∃ op ∈ dataOpcodes, (parseCommand i h).2 = updateHistory h op := by
  rw [parseCommand]
  by_cases h1 : i = []
  · rw [if_pos h1]; left; rfl
  rw [if_neg h1]
  by_cases h2 : i.getLast? ≠ some '#'
  · rw [if_pos h2]; left; rfl
  rw [if_neg h2]
  by_cases h3 : 11 ≤ i.length
  · rw [if_pos h3]
    rcases dispatch_snd_cases (i.take 10) (stripHash (i.drop 10)) h with hc | ⟨hmem, hc⟩
    · left; exact hc
    · right; exact ⟨_, hmem, hc⟩
  · rw [if_neg h3]; left; rfl

/-! ### C2: frame errors are a no-op -/

/-- C2: for every input that is empty, or whose last character is not `#`,
or whose total length is less than 11, `parseCommand` writes nothing to the
sink and leaves the history ring exactly as it was. -/
theorem framing_rejection_noop (input : List Char) (h : List (List Char))
    (hbad : input = [] ∨ input.getLast? ≠ some '#' ∨ input.length < 11) :
    parseCommand input h = ([], h) := by
  rw [parseCommand]
  rcases hbad with hb | hb | hb
  · rw [if_pos hb]
  · by_cases he : input = []
    · rw [if_pos he]
    · rw [if_neg he, if_pos hb]
  · by_cases he : input = []
    · rw [if_pos he]
    · rw [if_neg he]
      by_cases hl : input.getLast? ≠ some '#'
      · rw [if_pos hl]
      · rw [if_neg hl, if_neg (Nat.not_le.mpr hb)]

theorem framing_rejection_noop_witness :
    ("RUN_NO____123".toList = [] ∨ ("RUN_NO____123".toList).getLast? ≠ some '#' ∨
      ("RUN_NO____123".toList).length < 11) ∧
    parseCommand "RUN_NO____123".toList [opUSR] = ([], [opUSR]) :=
  ⟨by decide, framing_rejection_noop _ _ (by decide)⟩

/-! ### C3: ring length invariant -/

lemma updateHistory_length (h : List (List Char)) (op : List Char) (hle : h.length ≤ 5) :
    (updateHistory h op).length ≤ 5 := by
  rw [updateHistory_eq]
  by_cases h5 : 5 ≤ h.length
  · rw [if_pos h5, List.length_cons, List.length_dropLast,
        Nat.sub_add_cancel (le_trans (by decide) h5)]
    exact hle
  · rw [if_neg h5, List.length_cons]
    exact Nat.succ_le_of_lt (Nat.lt_of_not_le h5)

lemma parseCommand_length_le (i : List Char) (h : List (List Char)) (hle : h.length ≤ 5) :
    (parseCommand i h).2.length ≤ 5 := by
  rcases parseCommand_snd_cases i h with hc | ⟨op, _, hc⟩
  · rw [hc]; exact hle
  · rw [hc]; exact updateHistory_length h op hle

lemma foldl_parse_length_le (inputs : List (List Char)) :
    ∀ h : List (List Char), h.length ≤ 5 →
      (inputs.foldl (fun h i => (parseCommand i h).2) h).length ≤ 5 := by
  induction inputs with
  | nil => intro h hle; simpa using hle
  | cons i t ih => intro h hle; simpa using ih _ (parseCommand_length_le i h hle)

/-- C3: starting from the empty ring, after any finite sequence of
`parseCommand` calls the ring length is at most 5; and `updateHistory`
prepends its opcode and, exactly when the length would exceed 5, drops the
oldest (back) entry. -/
theorem history_length_invariant :
    (∀ inputs : List (List Char), (histAfter inputs).length ≤ 5) ∧
    (∀ (h : List (List Char)) (op : List Char),
      updateHistory h op = op :: (if 5 ≤ h.length then h.dropLast else h)) :=
  ⟨fun inputs => foldl_parse_length_le inputs [] (by simp), updateHistory_eq⟩

/-! ### C4: ring entries are data opcodes -/

lemma mem_updateHistory (e op : List Char) (h : List (List Char))
    (he : e ∈ updateHistory h op) : e = op ∨ e ∈ h := by
  rw [updateHistory_eq] at he
  rcases List.mem_cons.mp he with rfl | he'
  · left; rfl
  · right
    by_cases h5 : 5 ≤ h.length
    · rw [if_pos h5] at he'; exact List.mem_of_mem_dropLast he'
    · rw [if_neg h5] at he'; exact he'

lemma parseCommand_mem_data (i e : List Char) (h : List (List Char))
    (hh : ∀ x ∈ h, x ∈ dataOpcodes) (he : e ∈ (parseCommand i h).2) : e ∈ dataOpcodes := by
  rcases parseCommand_snd_cases i h with hc | ⟨op, hop, hc⟩
  · rw [hc] at he; exact hh e he
  · rw [hc] at he
    rcases mem_updateHistory e op h he with rfl | he'
    · exact hop
    · exact hh e he'

lemma foldl_parse_mem_data (inputs : List (List Char)) :
    ∀ h : List (List Char), (∀ x ∈ h, x ∈ dataOpcodes) →
      ∀ e ∈ inputs.foldl (fun h i => (parseCommand i h).2) h, e ∈ dataOpcodes := by
  induction inputs with
  | nil => intro h hh e he; exact hh e (by simpa using he)
  | cons i t ih =>
      intro h hh e he
      exact ih _ (fun x hx => parseCommand_mem_data i x h hh hx) e (by simpa using he)

/-- C4: starting from the empty ring, after any finite sequence of
`parseCommand` calls every ring entry is one of the four data opcodes, and
in particular `HISTORY___` never appears in the ring. -/
theorem history_entries_are_data_opcodes (inputs : List (List Char)) (e : List Char)
    (he : e ∈ histAfter inputs) : e ∈ dataOpcodes ∧ e ≠ opHISTORY := by
  have hd := foldl_parse_mem_data inputs [] (by simp) e he
  refine ⟨hd, ?_⟩
  simp only [dataOpcodes, List.mem_cons, List.not_mem_nil, or_false] at hd
  rcases hd with rfl | rfl | rfl | rfl <;> decide

theorem history_entries_are_data_opcodes_witness :
    opRUN ∈ histAfter [opRUN ++ "1".toList ++ ['#']] ∧
    (opRUN ∈ dataOpcodes ∧ opRUN ≠ opHISTORY) := by
  have hh : histAfter [opRUN ++ "1".toList ++ ['#']] = updateHistory [] opRUN := by
    simp only [histAfter, List.foldl_cons, List.foldl_nil]
    rw [parseCommand_framed _ _ _ opRUN_length, dispatch_run]
  have hmem : opRUN ∈ histAfter [opRUN ++ "1".toList ++ ['#']] := by
    rw [hh]
    exact List.mem_cons_self _ _
  exact ⟨hmem, history_entries_are_data_opcodes [opRUN ++ "1".toList ++ ['#']] opRUN hmem⟩

/-! ### C5: `D_USR_FLD_` token parity -/

/-- C5: for a well-framed `D_USR_FLD_` message, if the number of non-empty
comma tokens is odd, `parseCommand` emits nothing and leaves the ring
unchanged; if it is even, it emits the `Parameters:` header (followed by the
per-pair lines) and records the opcode. -/
theorem dusr_fld_token_parity (p : List Char) (h : List (List Char)) :
    parseCommand (opDUSR ++ p ++ ['#']) h =
      if (tokens p).length % 2 ≠ 0 then ([], h)
      else ("Parameters:".toList :: processPairs (tokens p), updateHistory h opDUSR) := by
  rw [parseCommand_framed opDUSR p h opDUSR_length, dispatch_dusr]

/-! ### C9: empty or all-comma `D_USR_FLD_` payload -/

lemma tokens_all_comma (p : List Char) (hp : ∀ c ∈ p, c = ',') : tokens p = [] := by
  unfold tokens
  induction p with
  | nil => rfl
  | cons c t ih =>
      have hc : c = ',' := hp c (by simp)
      subst hc
      rw [splitCommas, if_pos rfl]
      simpa using ih (fun c hc => hp c (List.mem_cons_of_mem _ hc))

/-- C9: a well-framed `D_USR_FLD_` message whose payload is empty or made of
commas only tokenises to the empty list, which counts as an even list: the
single line `Parameters:` is emitted and the opcode is recorded. -/
theorem dusr_fld_empty_payload (p : List Char) (h : List (List Char))
    (hp : ∀ c ∈ p, c = ',') :
    parseCommand (opDUSR ++ p ++ ['#']) h =
      (["Parameters:".toList], updateHistory h opDUSR) := by
  rw [parseCommand_framed opDUSR p h opDUSR_length, dispatch_dusr, tokens_all_comma p hp]
  rw [if_neg (by decide)]
  rfl

theorem dusr_fld_empty_payload_witness :
    (∀ c ∈ "".toList, c = ',') ∧
    parseCommand (opDUSR ++ "".toList ++ ['#']) [] =
      (["Parameters:".toList], updateHistory [] opDUSR) :=
  ⟨by decide, dusr_fld_empty_payload _ _ (by decide)⟩

/-! ### C1: integer opcodes -/

/-- C1 counterexample: on the input `RUN_NO____123abc#` the payload `123abc`
contains non-digit characters, so the claim requires the `Invalid Run
number:` line, but the parser emits the success line `Run number: 123` (the
platform `std::stoi` ignores trailing garbage after a valid digit run). -/
theorem run_number_trailing_garbage_accepted :
    (parseCommand (opRUN ++ "123abc".toList ++ ['#']) []).1 = ["Run number: 123".toList] ∧
    (parseCommand (opRUN ++ "123abc".toList ++ ['#']) []).1 ≠
      ["Invalid Run number: 123abc".toList] ∧
    'a' ∈ "123abc".toList ∧ isDigitC 'a' = false ∧ 'a' ≠ '+' ∧ 'a' ≠ '-' := by
  have hout : (parseCommand (opRUN ++ "123abc".toList ++ ['#']) []).1 =
      ["Run number: 123".toList] := by
    rw [parseCommand_framed _ _ _ opRUN_length, dispatch_run]
    rfl
  refine ⟨hout, ?_, by decide, by decide, by decide, by decide⟩
  rw [hout]
  decide

/-- C1 (amended): for every well-framed input with opcode `RUN_NO____` or
`POLAR_NO__` (such inputs are exactly `opcode ++ payload ++ "#"`), the
parser emits the success line with the value `stoi` extracts — optional C
whitespace, optional sign, then the longest run of decimal digits, trailing
garbage ignored — exactly when that run is non-empty and its value fits the
32-bit platform integer; otherwise it emits the `Invalid …` line echoing
the payload; and in every case the opcode is recorded in the history. -/
theorem run_polar_number_decode (p : List Char) (h : List (List Char)) :
    parseCommand (opRUN ++ p ++ ['#']) h =
      ((match stoi p with
        | some n => ["Run number: ".toList ++ intToChars n]
        | none => ["Invalid Run number: ".toList ++ p]), updateHistory h opRUN) ∧
    parseCommand (opPOLAR ++ p ++ ['#']) h =
      ((match stoi p with
        | some n => ["Polar number: ".toList ++ intToChars n]
        | none => ["Invalid Polar number: ".toList ++ p]), updateHistory h opPOLAR) :=
  ⟨by rw [parseCommand_framed opRUN p h opRUN_length]; exact dispatch_run p h,
   by rw [parseCommand_framed opPOLAR p h opPOLAR_length]; exact dispatch_polar p h⟩

/-! ### C6: `D_USR_FLD_` with every pair skipped -/

/-- C6 counterexample: the well-framed `D_USR_FLD_` message
`D_USR_FLD_AAAAAAAAAAAAAAAA,1#` has an even token count and its single pair
has a 16-character name; the parser emits the header AND a `Parameter name
too long:` diagnostic line, not only the header. -/
theorem dusr_fld_skipped_pairs_emit_diagnostics :
    15 < ("AAAAAAAAAAAAAAAA".toList).length ∧
    tokens "AAAAAAAAAAAAAAAA,1".toList = ["AAAAAAAAAAAAAAAA".toList, "1".toList] ∧
    (parseCommand (opDUSR ++ "AAAAAAAAAAAAAAAA,1".toList ++ ['#']) []).1 =
      ["Parameters:".toList, "Parameter name too long: AAAAAAAAAAAAAAAA".toList] ∧
    (parseCommand (opDUSR ++ "AAAAAAAAAAAAAAAA,1".toList ++ ['#']) []).1 ≠
      ["Parameters:".toList] := by
  have ht : tokens "AAAAAAAAAAAAAAAA,1".toList =
      ["AAAAAAAAAAAAAAAA".toList, "1".toList] := rfl
  have hout : (parseCommand (opDUSR ++ "AAAAAAAAAAAAAAAA,1".toList ++ ['#']) []).1 =
      ["Parameters:".toList, "Parameter name too long: AAAAAAAAAAAAAAAA".toList] := by
    rw [parseCommand_framed _ _ _ opDUSR_length, dispatch_dusr, ht,
        if_neg (by decide)]
    rfl
  refine ⟨by decide, ht, hout, ?_⟩
  rw [hout]
  decide

lemma pairsFlatten_length_even (prs : List (List Char × List Char)) :
    (pairsFlatten prs).length % 2 = 0 := by
  induction prs with
  | nil => rfl
  | cons pr r ih =>
      rcases pr with ⟨a, b⟩
      show ((pairsFlatten r).length + 2) % 2 = 0
      rw [Nat.add_mod_right]
      exact ih

lemma processPairs_all_too_long (prs : List (List Char × List Char))
    (hlong : ∀ pr ∈ prs, 15 < pr.1.length) :
    processPairs (pairsFlatten prs) =
      prs.map (fun pr => "Parameter name too long: ".toList ++ pr.1) := by
  induction prs with
  | nil => rfl
  | cons pr r ih =>
      rcases pr with ⟨a, b⟩
      rw [pairsFlatten, processPairs, if_pos (hlong ⟨a, b⟩ (by simp)), List.map_cons]
      exact congrArg _ (ih (fun pr hpr => hlong pr (List.mem_cons_of_mem _ hpr)))

/-- C6 (amended): for a well-framed `D_USR_FLD_` message whose token count
is even and in which every pair is skipped (every parameter name longer than
15 characters), the parser emits the `Parameters:` header followed by one
`Parameter name too long: <name>` diagnostic per pair — no `name = value`
and no `Invalid parameter value` lines — and still records the opcode. -/
theorem dusr_fld_all_pairs_skipped (p : List Char) (h : List (List Char))
    (prs : List (List Char × List Char)) (htok : tokens p = pairsFlatten prs)
    (hlong : ∀ pr ∈ prs, 15 < pr.1.length) :
    parseCommand (opDUSR ++ p ++ ['#']) h =
      ("Parameters:".toList ::
         prs.map (fun pr => "Parameter name too long: ".toList ++ pr.1),
       updateHistory h opDUSR) := by
  rw [parseCommand_framed opDUSR p h opDUSR_length, dispatch_dusr, htok,
      if_neg (by simp [pairsFlatten_length_even prs]),
      processPairs_all_too_long prs hlong]

theorem dusr_fld_all_pairs_skipped_witness :
    tokens "AAAAAAAAAAAAAAAA,1".toList =
      pairsFlatten [("AAAAAAAAAAAAAAAA".toList, "1".toList)] ∧
    (∀ pr ∈ [("AAAAAAAAAAAAAAAA".toList, "1".toList)], 15 < pr.1.length) ∧
    parseCommand (opDUSR ++ "AAAAAAAAAAAAAAAA,1".toList ++ ['#']) [] =
      ("Parameters:".toList ::
         [("AAAAAAAAAAAAAAAA".toList, "1".toList)].map
           (fun pr => "Parameter name too long: ".toList ++ pr.1),
       updateHistory [] opDUSR) :=
  ⟨rfl, by decide,
   dusr_fld_all_pairs_skipped "AAAAAAAAAAAAAAAA,1".toList []
     [("AAAAAAAAAAAAAAAA".toList, "1".toList)] rfl (by decide)⟩

/-! ### C7: `HISTORY___` ordering and transparency -/

lemma updateHistory_take (h : List (List Char)) (op : List Char) (hle : h.length ≤ 5) :
    updateHistory h op = (op :: h).take 5 := by
  rw [updateHistory_eq]
  by_cases h5 : 5 ≤ h.length
  · rw [if_pos h5, List.dropLast_eq_take, le_antisymm hle h5]
    rfl
  · rw [if_neg h5, List.take_of_length_le (by simp only [List.length_cons]; omega)]

lemma foldl_updateHistory_take (ops : List (List Char)) :
    ∀ h : List (List Char), h.length ≤ 5 →
      ops.foldl updateHistory h = (ops.reverse ++ h).take 5 := by
  induction ops with
  | nil => intro h hle; simp [List.take_of_length_le hle]
  | cons op t ih =>
      intro h hle
      rw [List.foldl_cons, ih (updateHistory h op) (updateHistory_length h op hle),
          updateHistory_take h op hle, List.reverse_cons, List.append_assoc]
      rw [List.take_append_eq_append_take,
          @List.take_append_eq_append_take _ t.reverse ([op] ++ h) 5]
      congr 1
      rw [List.take_take, Nat.min_eq_left (Nat.sub_le 5 _)]
      rfl

lemma foldl_parse_eq_foldl_update (inputs : List (List Char)) :
    ∀ h : List (List Char),
      (∀ i ∈ inputs, ∀ h0, (parseCommand i h0).2 = updateHistory h0 (i.take 10)) →
      inputs.foldl (fun h0 i => (parseCommand i h0).2) h =
        (inputs.map (fun i => i.take 10)).foldl updateHistory h := by
  induction inputs with
  | nil => intro h _; rfl
  | cons i t ih =>
      intro h hrec
      rw [List.foldl_cons, List.map_cons, List.foldl_cons, hrec i (by simp) h]
      exact ih _ (fun j hj h0 => hrec j (List.mem_cons_of_mem _ hj) h0)

/-- C7: if every input in the sequence is recorded (its parse effect on any
ring is `updateHistory` with its 10-character opcode), then starting from
the empty ring the ring afterwards holds the last `min 5 k` opcodes newest
first, and parsing `HISTORY___#` emits exactly those ring entries, one per
line, without changing the ring. -/
theorem history_query_ordering (inputs : List (List Char))
    (hrec : ∀ i ∈ inputs, ∀ h, (parseCommand i h).2 = updateHistory h (i.take 10)) :
    parseCommand (opHISTORY ++ ['#']) (histAfter inputs) =
      (histAfter inputs, histAfter inputs) ∧
    histAfter inputs = ((inputs.map (fun i => i.take 10)).reverse).take 5 ∧
    (histAfter inputs).length = min 5 inputs.length := by
  have hft : histAfter inputs = ((inputs.map (fun i => i.take 10)).reverse).take 5 := by
    unfold histAfter
    rw [foldl_parse_eq_foldl_update inputs [] hrec,
        foldl_updateHistory_take _ [] (by simp)]
    simp
  have hq : parseCommand (opHISTORY ++ ['#']) (histAfter inputs) =
      (histAfter inputs, histAfter inputs) := by
    rw [show opHISTORY ++ ['#'] = opHISTORY ++ [] ++ ['#'] by rw [List.append_nil],
        parseCommand_framed _ _ _ opHISTORY_length, dispatch_history]
  refine ⟨hq, hft, ?_⟩
  rw [hft]
  simp [List.length_take]

theorem history_query_ordering_witness :
    (∀ i ∈ [opUSR ++ "a".toList ++ ['#']], ∀ h,
      (parseCommand i h).2 = updateHistory h (i.take 10)) ∧
    (parseCommand (opHISTORY ++ ['#']) (histAfter [opUSR ++ "a".toList ++ ['#']]) =
      (histAfter [opUSR ++ "a".toList ++ ['#']],
       histAfter [opUSR ++ "a".toList ++ ['#']]) ∧
     histAfter [opUSR ++ "a".toList ++ ['#']] =
       (([opUSR ++ "a".toList ++ ['#']].map (fun i => i.take 10)).reverse).take 5 ∧
     (histAfter [opUSR ++ "a".toList ++ ['#']]).length =
       min 5 ([opUSR ++ "a".toList ++ ['#']] : List (List Char)).length) := by
  have h2 : ∀ h, (parseCommand (opUSR ++ "a".toList ++ ['#']) h).2 =
      updateHistory h ((opUSR ++ "a".toList ++ ['#']).take 10) := by
    intro h
    rw [parseCommand_framed _ _ _ opUSR_length, dispatch_usr,
        show (opUSR ++ "a".toList ++ ['#']).take 10 = opUSR by
          rw [List.append_assoc]; exact List.take_left' opUSR_length]
  have hrec : ∀ i ∈ [opUSR ++ "a".toList ++ ['#']], ∀ h,
      (parseCommand i h).2 = updateHistory h (i.take 10) := by
    intro i hi h
    rcases List.mem_cons.mp hi with rfl | hi
    · exact h2 h
    · exact absurd hi (List.not_mem_nil _)
  exact ⟨hrec, history_query_ordering _ hrec⟩

/-! ### C8: integer round trip -/

lemma digitsVal_append_singleton (ds : List Char) (c : Char) :
    digitsVal (ds ++ [c]) = 10 * digitsVal ds + (c.toNat - 48) := by
  unfold digitsVal
  rw [List.foldl_append]
  rfl

lemma digitChar_isDigit (d : Nat) (hd : d < 10) : isDigitC (digitChar d) = true := by
  interval_cases d <;> decide

lemma digitChar_toNat (d : Nat) (hd : d < 10) : (digitChar d).toNat = 48 + d := by
  interval_cases d <;> decide

lemma natCharsAux_spec (fuel : Nat) :
    ∀ n : Nat, 0 < n → n ≤ fuel →
      natCharsAux fuel n ≠ [] ∧ (∀ c ∈ natCharsAux fuel n, isDigitC c = true) ∧
        digitsVal (natCharsAux fuel n) = n := by
  induction fuel with
  | zero => intro n h0 hle; exact absurd (Nat.lt_of_lt_of_le h0 hle) (Nat.lt_irrefl 0)
  | succ fuel ih =>
      intro n h0 hle
      rcases n with _ | m
      · exact absurd h0 (Nat.lt_irrefl 0)
      rw [natCharsAux]
      have hmod : (m + 1) % 10 < 10 := Nat.mod_lt _ (Nat.succ_pos 9)
      by_cases hq : (m + 1) / 10 = 0
      · rw [hq]
        have h00 : natCharsAux fuel 0 = [] := by cases fuel <;> rfl
        rw [h00, List.nil_append]
        have hlt10 : m + 1 < 10 := (Nat.div_eq_zero_iff (Nat.succ_pos 9)).mp hq
        refine ⟨by simp, ?_, ?_⟩
        · intro c hc
          simp only [List.mem_singleton] at hc
          subst hc
          exact digitChar_isDigit _ hmod
        · show digitsVal [digitChar ((m + 1) % 10)] = m + 1
          unfold digitsVal
          simp only [List.foldl_cons, List.foldl_nil]
          rw [digitChar_toNat _ hmod, Nat.mul_zero, Nat.zero_add,
              Nat.add_sub_cancel_left, Nat.mod_eq_of_lt hlt10]
      · have hdl : (m + 1) / 10 < m + 1 := Nat.div_lt_self (Nat.succ_pos m) (by decide)
        have hlt : (m + 1) / 10 ≤ fuel := Nat.lt_succ_iff.mp (Nat.lt_of_lt_of_le hdl hle)
        obtain ⟨hne, hdig, hval⟩ := ih ((m + 1) / 10) (Nat.pos_of_ne_zero hq) hlt
        refine ⟨by simp, ?_, ?_⟩
        · intro c hc
          rcases List.mem_append.mp hc with hc | hc
          · exact hdig c hc
          · simp only [List.mem_singleton] at hc
            subst hc
            exact digitChar_isDigit _ hmod
        · rw [digitsVal_append_singleton, hval, digitChar_toNat _ hmod,
              Nat.add_sub_cancel_left, Nat.div_add_mod]

lemma natToChars_spec (n : Nat) :
    natToChars n ≠ [] ∧ (∀ c ∈ natToChars n, isDigitC c = true) ∧
      digitsVal (natToChars n) = n := by
  unfold natToChars
  by_cases h0 : n = 0
  · subst h0
    rw [if_pos rfl]
    exact ⟨by decide, by decide, by decide⟩
  · rw [if_neg h0]
    exact natCharsAux_spec (n + 1) n (Nat.pos_of_ne_zero h0) (by omega)

lemma dropWhile_of_head_not (p : Char → Bool) (c : Char) (t : List Char)
    (hc : p c = false) : (c :: t).dropWhile p = c :: t := by
  rw [List.dropWhile_cons, if_neg (by simp [hc])]

lemma takeWhile_of_all (p : Char → Bool) (l : List Char) (hl : ∀ c ∈ l, p c = true) :
    l.takeWhile p = l := by
  induction l with
  | nil => rfl
  | cons c t ih =>
      rw [List.takeWhile_cons, if_pos (hl c (by simp)),
          ih (fun c hc => hl c (List.mem_cons_of_mem _ hc))]

lemma isDigitC_props (c : Char) (hc : isDigitC c = true) :
    isCSpace c = false ∧ c ≠ '-' ∧ c ≠ '+' := by
  unfold isDigitC at hc
  rw [decide_eq_true_iff] at hc
  refine ⟨?_, ?_, ?_⟩
  · unfold isCSpace
    rw [decide_eq_false_iff_not]
    rintro (h32 | ⟨_, h13⟩)
    · exact absurd (h32 ▸ hc.1) (by decide)
    · exact absurd (le_trans hc.1 h13) (by decide)
  · intro h
    subst h
    exact absurd hc (by decide)
  · intro h
    subst h
    exact absurd hc (by decide)

lemma stoi_of_all_digits (ds : List Char) (hne : ds ≠ [])
    (hdig : ∀ c ∈ ds, isDigitC c = true) (hbound : (digitsVal ds : Int) ≤ intMax) :
    stoi ds = some ((digitsVal ds : Int)) := by
  rcases ds with _ | ⟨c, t⟩
  · exact absurd rfl hne
  have hc := hdig c (by simp)
  obtain ⟨hsp, hminus, hplus⟩ := isDigitC_props c hc
  have hmin : ¬((digitsVal (c :: t) : Int) < intMin) :=
    fun hlt => absurd (lt_of_le_of_lt (Int.ofNat_nonneg _) hlt) (by decide)
  have hsome : ¬(some c = some '-') := by simp [hminus]
  have hsome2 : ¬(some c = some '-' ∨ some c = some '+') := by simp [hminus, hplus]
  simp only [stoi, dropWhile_of_head_not _ _ _ hsp, List.head?_cons]
  rw [if_neg hsome, if_neg hsome2, takeWhile_of_all _ _ hdig, if_neg hne, one_mul,
      if_neg (by push_neg; exact ⟨not_lt.mp hmin, hbound⟩)]

lemma stoi_neg_digits (ds : List Char) (hne : ds ≠ [])
    (hdig : ∀ c ∈ ds, isDigitC c = true) (hbound : intMin ≤ -(digitsVal ds : Int)) :
    stoi ('-' :: ds) = some (-(digitsVal ds : Int)) := by
  have hmax : ¬(intMax < -(digitsVal ds : Int)) :=
    fun hlt => absurd (lt_of_lt_of_le hlt (neg_nonpos.mpr (Int.ofNat_nonneg _)))
      (by decide)
  simp only [stoi, dropWhile_of_head_not _ _ _ (show isCSpace '-' = false by decide),
             List.head?_cons, List.tail_cons, true_or, if_true]
  rw [takeWhile_of_all _ _ hdig, if_neg hne, neg_one_mul,
      if_neg (by push_neg; exact ⟨hbound, not_lt.mp hmax⟩)]

lemma stoi_intToChars (n : Int) (h1 : intMin ≤ n) (h2 : n ≤ intMax) :
    stoi (intToChars n) = some n := by
  obtain ⟨hne, hdig, hval⟩ := natToChars_spec n.natAbs
  unfold intToChars
  by_cases hn : n < 0
  · have he : (n.natAbs : Int) = -n := Int.ofNat_natAbs_of_nonpos (le_of_lt hn)
    rw [if_pos hn, stoi_neg_digits (natToChars n.natAbs) hne hdig
        (by rw [hval, he, neg_neg]; exact h1)]
    rw [hval, he, neg_neg]
  · have he : (n.natAbs : Int) = n := Int.natAbs_of_nonneg (not_lt.mp hn)
    rw [if_neg hn, stoi_of_all_digits (natToChars n.natAbs) hne hdig
        (by rw [hval, he]; exact h2)]
    rw [hval, he]

/-- C8: for every decimal integer `n` representable in the 32-bit platform
integer, parsing `RUN_NO____` followed by the decimal spelling of `n` and
the sentinel emits exactly the line `Run number: n`. -/
theorem run_number_round_trip (n : Int) (h : List (List Char))
    (h1 : intMin ≤ n) (h2 : n ≤ intMax) :
    (parseCommand (opRUN ++ intToChars n ++ ['#']) h).1 =
      ["Run number: ".toList ++ intToChars n] := by
  rw [parseCommand_framed opRUN _ h opRUN_length, dispatch_run, stoi_intToChars n h1 h2]

theorem run_number_round_trip_witness :
    (intMin ≤ (123 : Int) ∧ (123 : Int) ≤ intMax) ∧
    (parseCommand (opRUN ++ intToChars 123 ++ ['#']) []).1 =
      ["Run number: ".toList ++ intToChars 123] :=
  ⟨by decide, run_number_round_trip 123 [] (by decide) (by decide)⟩

/-! ### C10: `D_USR_FLD_` value decoding via longest valid prefix -/

lemma takeWhile_ne_nil_iff (p : Char → Bool) (l : List Char) :
    l.takeWhile p ≠ [] ↔ ∃ c, l.head? = some c ∧ p c = true := by
  cases l with
  | nil => simp
  | cons c t =>
      rw [List.takeWhile_cons]
      by_cases hc : p c = true
      · simp [hc]
      · simp [hc]

lemma dropWhile_of_takeWhile_nil (p : Char → Bool) (l : List Char)
    (h : l.takeWhile p = []) : l.dropWhile p = l := by
  cases l with
  | nil => rfl
  | cons c t =>
      rw [List.takeWhile_cons] at h
      by_cases hc : p c = true
      · rw [if_pos hc] at h
        exact absurd h (by simp)
      · rw [List.dropWhile_cons, if_neg hc]

lemma dropWhile_append_of_ne_nil (p : Char → Bool) (l₁ l₂ : List Char)
    (h : l₁.dropWhile p ≠ []) :
    (l₁ ++ l₂).dropWhile p = l₁.dropWhile p ++ l₂ := by
  induction l₁ with
  | nil => exact absurd rfl h
  | cons c t ih =>
      by_cases hc : p c = true
      · rw [List.dropWhile_cons, if_pos hc] at h
        rw [List.cons_append, List.dropWhile_cons, if_pos hc,
            List.dropWhile_cons, if_pos hc]
        exact ih h
      · simp [List.dropWhile_cons, hc]

lemma dropWhile_all_append (p : Char → Bool) (l₁ l₂ : List Char)
    (h : ∀ c ∈ l₁, p c = true) : (l₁ ++ l₂).dropWhile p = l₂.dropWhile p := by
  induction l₁ with
  | nil => rfl
  | cons c t ih =>
      rw [List.cons_append, List.dropWhile_cons, if_pos (h c (by simp))]
      exact ih (fun a ha => h a (List.mem_cons_of_mem _ ha))

lemma mantissa_found_iff (s2 : List Char) :
    ¬(intPart s2 = [] ∧ fracPart s2 = []) ↔
      (∃ c, s2.head? = some c ∧ isDigitC c = true) ∨
      (s2.head? = some '.' ∧ ∃ c, s2.tail.head? = some c ∧ isDigitC c = true) := by
  by_cases hint : intPart s2 = []
  · have hdw : s2.dropWhile isDigitC = s2 := dropWhile_of_takeWhile_nil _ _ hint
    have hnd : ¬∃ c, s2.head? = some c ∧ isDigitC c = true :=
      fun hex => ((takeWhile_ne_nil_iff isDigitC s2).mpr hex) hint
    by_cases hdot : s2.head? = some '.'
    · have hfrac : fracPart s2 = s2.tail.takeWhile isDigitC := by
        simp only [fracPart]
        rw [hdw, if_pos hdot]
      rw [hfrac]
      constructor
      · intro hn
        right
        refine ⟨hdot, ?_⟩
        refine (takeWhile_ne_nil_iff isDigitC s2.tail).mp ?_
        intro h0
        exact hn ⟨hint, h0⟩
      · rintro (hc | ⟨_, hc⟩)
        · exact absurd hc hnd
        · intro hand
          exact ((takeWhile_ne_nil_iff isDigitC s2.tail).mpr hc) hand.2
    · have hfrac : fracPart s2 = [] := by
        simp only [fracPart]
        rw [hdw, if_neg hdot]
      constructor
      · intro hn
        exact (hn ⟨hint, hfrac⟩).elim
      · rintro (hc | ⟨hdot2, _⟩)
        · exact absurd hc hnd
        · exact absurd hdot2 hdot
  · constructor
    · intro _
      left
      exact (takeWhile_ne_nil_iff isDigitC s2).mp hint
    · intro _ hand
      exact hint hand.1

lemma scanFloat_isSome_iff (s : List Char) :
    (scanFloat s).isSome = true ↔
      ¬(intPart (dropSign (s.dropWhile isCSpace)) = [] ∧
        fracPart (dropSign (s.dropWhile isCSpace)) = []) := by
  simp only [scanFloat]
  by_cases hm : intPart (dropSign (s.dropWhile isCSpace)) = [] ∧
      fracPart (dropSign (s.dropWhile isCSpace)) = []
  · rw [if_pos hm]
    simp [hm]
  · rw [if_neg hm]
    simp [hm]

lemma validFloat_mantissa (l : List Char) (hv : validFloat l = true) :
    ¬(intPart (dropSign (l.dropWhile isCSpace)) = [] ∧
      fracPart (dropSign (l.dropWhile isCSpace)) = []) := by
  intro hm
  simp only [validFloat] at hv
  rw [if_pos hm] at hv
  exact Bool.false_ne_true hv

lemma validFloat_of_s2 (l : List Char)
    (h1 : ¬(intPart (dropSign (l.dropWhile isCSpace)) = [] ∧
            fracPart (dropSign (l.dropWhile isCSpace)) = []))
    (h2 : afterMantissa (dropSign (l.dropWhile isCSpace)) = []) :
    validFloat l = true := by
  simp only [validFloat]
  rw [if_neg h1, if_pos h2]

lemma dropSign_cons_sign (x : Char) (hx : x = '-' ∨ x = '+') (u : List Char) :
    dropSign (x :: u) = u := by
  simp only [dropSign, List.head?_cons]
  rcases hx with rfl | rfl
  · rw [if_pos (Or.inl rfl)]
    rfl
  · rw [if_pos (Or.inr rfl)]
    rfl

lemma dropSign_no_sign (u : List Char)
    (h : u.head? ≠ some '-' ∧ u.head? ≠ some '+') : dropSign u = u := by
  simp only [dropSign]
  rw [if_neg (by tauto)]

lemma core_digit_parts (c : Char) (hc : isDigitC c = true) :
    intPart [c] = [c] ∧ fracPart [c] = [] ∧ afterMantissa [c] = [] := by
  have h2 : ([c] : List Char).dropWhile isDigitC = [] := by
    rw [List.dropWhile_cons, if_pos hc]
    rfl
  refine ⟨?_, ?_, ?_⟩
  · simp only [intPart]
    rw [List.takeWhile_cons, if_pos hc]
    rfl
  · simp only [fracPart]
    rw [h2, if_neg (by simp)]
  · simp only [afterMantissa]
    rw [h2, if_neg (by simp)]

lemma core_dot_parts (c : Char) (hc : isDigitC c = true) :
    intPart ['.', c] = [] ∧ fracPart ['.', c] = [c] ∧ afterMantissa ['.', c] = [] := by
  have h2 : (['.', c] : List Char).dropWhile isDigitC = ['.', c] := by
    rw [List.dropWhile_cons, if_neg (by decide)]
  have h4 : ([c] : List Char).dropWhile isDigitC = [] := by
    rw [List.dropWhile_cons, if_pos hc]
    rfl
  refine ⟨?_, ?_, ?_⟩
  · simp only [intPart]
    rw [List.takeWhile_cons, if_neg (by decide)]
  · simp only [fracPart]
    rw [h2]
    simp only [List.head?_cons, if_true]
    rw [List.tail_cons, List.takeWhile_cons, if_pos hc]
    rfl
  · simp only [afterMantissa]
    rw [h2]
    simp only [List.head?_cons, if_true]
    rw [List.tail_cons]
    exact h4

lemma validFloat_ws_sign_digit (ws : List Char) (hws : ∀ a ∈ ws, isCSpace a = true)
    (x c : Char) (hx : x = '-' ∨ x = '+') (hc : isDigitC c = true) :
    validFloat (ws ++ [x, c]) = true := by
  have hxs : isCSpace x = false := by rcases hx with rfl | rfl <;> decide
  have hdw : (ws ++ [x, c]).dropWhile isCSpace = [x, c] := by
    rw [dropWhile_all_append _ _ _ hws, List.dropWhile_cons, if_neg (by simp [hxs])]
  have hds : dropSign ((ws ++ [x, c]).dropWhile isCSpace) = [c] := by
    rw [hdw]
    exact dropSign_cons_sign x hx [c]
  obtain ⟨h1, h2, h3⟩ := core_digit_parts c hc
  apply validFloat_of_s2
  · rw [hds, h1, h2]
    simp
  · rw [hds, h3]

lemma validFloat_ws_sign_dot (ws : List Char) (hws : ∀ a ∈ ws, isCSpace a = true)
    (x c : Char) (hx : x = '-' ∨ x = '+') (hc : isDigitC c = true) :
    validFloat (ws ++ [x, '.', c]) = true := by
  have hxs : isCSpace x = false := by rcases hx with rfl | rfl <;> decide
  have hdw : (ws ++ [x, '.', c]).dropWhile isCSpace = [x, '.', c] := by
    rw [dropWhile_all_append _ _ _ hws, List.dropWhile_cons, if_neg (by simp [hxs])]
  have hds : dropSign ((ws ++ [x, '.', c]).dropWhile isCSpace) = ['.', c] := by
    rw [hdw]
    exact dropSign_cons_sign x hx ['.', c]
  obtain ⟨h1, h2, h3⟩ := core_dot_parts c hc
  apply validFloat_of_s2
  · rw [hds, h1, h2]
    simp
  · rw [hds, h3]

lemma validFloat_ws_digit (ws : List Char) (hws : ∀ a ∈ ws, isCSpace a = true)
    (c : Char) (hc : isDigitC c = true) : validFloat (ws ++ [c]) = true := by
  obtain ⟨hsp, hminus, hplus⟩ := isDigitC_props c hc
  have hdw : (ws ++ [c]).dropWhile isCSpace = [c] := by
    rw [dropWhile_all_append _ _ _ hws, List.dropWhile_cons, if_neg (by simp [hsp])]
  have hds : dropSign ((ws ++ [c]).dropWhile isCSpace) = [c] := by
    rw [hdw]
    exact dropSign_no_sign [c] ⟨by simp [hminus], by simp [hplus]⟩
  obtain ⟨h1, h2, h3⟩ := core_digit_parts c hc
  apply validFloat_of_s2
  · rw [hds, h1, h2]
    simp
  · rw [hds, h3]

lemma validFloat_ws_dot (ws : List Char) (hws : ∀ a ∈ ws, isCSpace a = true)
    (c : Char) (hc : isDigitC c = true) : validFloat (ws ++ ['.', c]) = true := by
  have hdw : (ws ++ ['.', c]).dropWhile isCSpace = ['.', c] := by
    rw [dropWhile_all_append _ _ _ hws, List.dropWhile_cons, if_neg (by decide)]
  have hds : dropSign ((ws ++ ['.', c]).dropWhile isCSpace) = ['.', c] := by
    rw [hdw]
    exact dropSign_no_sign ['.', c] ⟨by simp, by simp⟩
  obtain ⟨h1, h2, h3⟩ := core_dot_parts c hc
  apply validFloat_of_s2
  · rw [hds, h1, h2]
    simp
  · rw [hds, h3]

lemma exists_valid_prefix_of_scanFloat (s : List Char)
    (hs : (scanFloat s).isSome = true) :
    ∃ pre t, s = pre ++ t ∧ pre ≠ [] ∧ validFloat pre = true := by
  rw [scanFloat_isSome_iff, mantissa_found_iff] at hs
  have hsplit : s = s.takeWhile isCSpace ++ s.dropWhile isCSpace :=
    (List.takeWhile_append_dropWhile _ _).symm
  have hws : ∀ a ∈ s.takeWhile isCSpace, isCSpace a = true :=
    fun a ha => List.mem_takeWhile_imp ha
  rcases hcons : s.dropWhile isCSpace with _ | ⟨x, u⟩
  · rw [hcons] at hs
    simp [dropSign] at hs
  · rw [hcons] at hs hsplit
    by_cases hsgn : x = '-' ∨ x = '+'
    · rw [dropSign_cons_sign x hsgn u] at hs
      rcases hs with ⟨c, hc, hdig⟩ | ⟨hdot, c, hc, hdig⟩
      · rcases u with _ | ⟨c0, u2⟩
        · exact absurd hc (by simp)
        · rw [List.head?_cons, Option.some.injEq] at hc
          subst hc
          refine ⟨s.takeWhile isCSpace ++ [x, c0], u2, ?_, by simp, ?_⟩
          · rw [List.append_assoc]
            exact hsplit
          · exact validFloat_ws_sign_digit _ hws x c0 hsgn hdig
      · rcases u with _ | ⟨d0, u2⟩
        · exact absurd hdot (by simp)
        · rw [List.head?_cons, Option.some.injEq] at hdot
          subst hdot
          rcases u2 with _ | ⟨c0, u3⟩
          · exact absurd hc (by simp)
          · rw [List.tail_cons, List.head?_cons, Option.some.injEq] at hc
            subst hc
            refine ⟨s.takeWhile isCSpace ++ [x, '.', c0], u3, ?_, by simp, ?_⟩
            · rw [List.append_assoc]
              exact hsplit
            · exact validFloat_ws_sign_dot _ hws x c0 hsgn hdig
    · have hx1 : x ≠ '-' := fun h => hsgn (Or.inl h)
      have hx2 : x ≠ '+' := fun h => hsgn (Or.inr h)
      rw [dropSign_no_sign (x :: u)
            ⟨by simp [List.head?_cons, hx1], by simp [List.head?_cons, hx2]⟩] at hs
      rcases hs with ⟨c, hc, hdig⟩ | ⟨hdot, c, hc, hdig⟩
      · rw [List.head?_cons, Option.some.injEq] at hc
        subst hc
        refine ⟨s.takeWhile isCSpace ++ [x], u, ?_, by simp, ?_⟩
        · rw [List.append_assoc]
          exact hsplit
        · exact validFloat_ws_digit _ hws x hdig
      · rw [List.head?_cons, Option.some.injEq] at hdot
        subst hdot
        rcases u with _ | ⟨c0, u2⟩
        · exact absurd hc (by simp)
        · rw [List.tail_cons, List.head?_cons, Option.some.injEq] at hc
          subst hc
          refine ⟨s.takeWhile isCSpace ++ ['.', c0], u2, ?_, by simp, ?_⟩
          · rw [List.append_assoc]
            exact hsplit
          · exact validFloat_ws_dot _ hws c0 hdig

lemma scanFloat_isSome_of_prefix (pre t : List Char) (hv : validFloat pre = true) :
    (scanFloat (pre ++ t)).isSome = true := by
  have hm := validFloat_mantissa pre hv
  rw [scanFloat_isSome_iff]
  have hs1ne : pre.dropWhile isCSpace ≠ [] := by
    intro h0
    apply hm
    rw [h0]
    exact ⟨rfl, rfl⟩
  have hdw : (pre ++ t).dropWhile isCSpace = pre.dropWhile isCSpace ++ t :=
    dropWhile_append_of_ne_nil _ _ _ hs1ne
  rw [hdw]
  have hhead : (pre.dropWhile isCSpace ++ t).head? = (pre.dropWhile isCSpace).head? :=
    List.head?_append_of_ne_nil _ hs1ne
  have hds : dropSign (pre.dropWhile isCSpace ++ t) =
      dropSign (pre.dropWhile isCSpace) ++ t := by
    simp only [dropSign, hhead]
    by_cases hsg : (pre.dropWhile isCSpace).head? = some '-' ∨
        (pre.dropWhile isCSpace).head? = some '+'
    · rw [if_pos hsg, if_pos hsg]
      rcases hp : pre.dropWhile isCSpace with _ | ⟨c, u⟩
      · exact absurd hp hs1ne
      · rfl
    · rw [if_neg hsg, if_neg hsg]
  rw [hds]
  rw [mantissa_found_iff] at hm ⊢
  rcases hm with ⟨c, hc, hdig⟩ | ⟨hdot, c, hc, hdig⟩
  · left
    have hne2 : dropSign (pre.dropWhile isCSpace) ≠ [] := by
      intro h0
      rw [h0] at hc
      exact Option.noConfusion hc
    exact ⟨c, by rw [List.head?_append_of_ne_nil _ hne2, hc], hdig⟩
  · right
    have hne2 : dropSign (pre.dropWhile isCSpace) ≠ [] := by
      intro h0
      rw [h0] at hdot
      exact Option.noConfusion hdot
    refine ⟨by rw [List.head?_append_of_ne_nil _ hne2, hdot], c, ?_, hdig⟩
    rcases hp : dropSign (pre.dropWhile isCSpace) with _ | ⟨y, v⟩
    · exact absurd hp hne2
    · rw [hp, List.tail_cons] at hc
      have hvne : v ≠ [] := by
        intro h0
        rw [h0] at hc
        exact Option.noConfusion hc
      rw [List.cons_append, List.tail_cons, List.head?_append_of_ne_nil _ hvne, hc]

/-- C10: once the name length check has passed, a `D_USR_FLD_` pair's value
token is accepted exactly when some non-empty prefix of it is a decimal
floating literal (the embedded `std::stod` longest-prefix parse succeeds),
and the printed line carries that prefix's value formatted with the default
double formatting; the `Invalid parameter value for parameter: <name>` line
is emitted exactly when no such prefix exists. -/
theorem dusr_value_longest_match :
    (∀ name value rest, name.length ≤ 15 →
      processPairs (name :: value :: rest) = pairLine name value :: processPairs rest) ∧
    (∀ value m e, scanFloat value = some (m, e) → ∀ name : List Char,
      pairLine name value = name ++ " = ".toList ++ fmtG m e) ∧
    (∀ value, scanFloat value = none → ∀ name : List Char,
      pairLine name value = "Invalid parameter value for parameter: ".toList ++ name) ∧
    (∀ value : List Char, (scanFloat value).isSome = true ↔
      ∃ pre t, value = pre ++ t ∧ pre ≠ [] ∧ validFloat pre = true) := by
  refine ⟨?_, ?_, ?_, ?_⟩
  · intro name value rest hlen
    rw [processPairs, if_neg (by omega)]
  · intro value m e hsf name
    rw [pairLine, hsf]
  · intro value hsf name
    rw [pairLine, hsf]
  · intro value
    constructor
    · exact exists_valid_prefix_of_scanFloat value
    · rintro ⟨pre, t, rfl, _, hv⟩
      exact scanFloat_isSome_of_prefix pre t hv

theorem dusr_value_longest_match_witness :
    ("name".toList.length ≤ 15) ∧
    processPairs ["name".toList, "1.5abc".toList] = ["name = 1.5".toList] ∧
    (scanFloat "1.5abc".toList).isSome = true ∧
    "1.5abc".toList = "1.5".toList ++ "abc".toList ∧ validFloat "1.5".toList = true := by
  refine ⟨by decide, ?_, rfl, rfl, rfl⟩
  rw [dusr_value_longest_match.1 "name".toList "1.5abc".toList [] (by decide)]
  rfl

end CM
